import Mathlib

/-!
Verification of the moderation core of filstream-curio-adapter
(`pkg/moderation`): the `DenylistBloom` membership filter
(`bloom.go`), the in-memory moderation queue / denylist / audit log
(`mock.go`), and the DMCA timing constants (`moderation.go`).

Shallow embedding conventions:
* Go byte slices become `List Nat` (each entry a byte value).
* Go `uint32`/`uint64` arithmetic is `Nat` with explicit `% 2^32` /
  `% 2^64` where Go would wrap.
* Go `time.Time` / `time.Duration` become `Int` (nanoseconds); the
  current instant is passed explicitly to each operation.
* An operation that can panic (index out of range, modulo by zero)
  returns `Option _`, `none` marking the panic.
* Go maps become association lists updated in place (`alU`), looked up
  with `alG`; map iteration order is irrelevant to the claims proved.
-/

namespace FilStream

/-- Modulus for Go `uint64` arithmetic. -/
def U64 : Nat := 2 ^ 64

/-- Modulus for Go `uint32` arithmetic. -/
def U32 : Nat := 2 ^ 32

/-! ## FNV-1 / FNV-1a 64-bit hashing (`hash/fnv`, used by `hashIndices`) -/

/-- FNV 64-bit prime. -/
def fnvPrime : Nat := 1099511628211

/-- FNV 64-bit offset basis. -/
def fnvOffset : Nat := 14695981039346656037

/-- FNV-1 64-bit hash of a byte string (`fnv.New64`): per byte,
`h = (h * prime) mod 2^64; h = h xor byte`. -/
def fnv64 (key : List Nat) : Nat :=
  key.foldl (fun h c => (h * fnvPrime % U64) ^^^ c) fnvOffset

/-- FNV-1a 64-bit hash of a byte string (`fnv.New64a`): per byte,
`h = h xor byte; h = (h * prime) mod 2^64`. -/
def fnv64a (key : List Nat) : Nat :=
  key.foldl (fun h c => (h ^^^ c) * fnvPrime % U64) fnvOffset

/-! ## The Bloom filter state (`bloom.go`) -/

/-- State of `DenylistBloom` (`bloom.go` lines 15-21): the byte array
`bits`, the hash count `numHash` (k), the bit count `numBits` (m) and
the approximate item count `count`.  In Go the three scalars are
`uint32`; states produced by the constructor or `Deserialize` keep
them below `2^32`. -/
structure DenylistBloom where
  bits    : List Nat
  numHash : Nat
  numBits : Nat
  count   : Nat
deriving DecidableEq

/-- Bit `idx` of the byte array: bit `idx % 8` of byte `idx / 8`
(out-of-range bytes read as 0).  This is the bit that
`bits[idx/8] |= 1 << (idx%8)` sets and that
`bits[idx/8] & (1 << (idx%8))` tests. -/
def bitSet (bits : List Nat) (idx : Nat) : Bool :=
  (bits.getD (idx / 8) 0).testBit (idx % 8)

/-- The k bit positions of a key (`hashIndices`, `bloom.go` lines
162-178): `uint32((a + uint64(i)*b) % uint64(numBits))` for
`i = 0 .. numHash-1`, with `a`/`b` the FNV-1/FNV-1a hashes.  When
`numBits = 0` the Go modulo panics, modelled as `none`. -/
def DenylistBloom.hashIndices (b : DenylistBloom) (key : List Nat) : Option (List Nat) :=
  (List.range b.numHash).mapM (fun i =>
    if b.numBits = 0 then none
    else some ((fnv64 key + i * fnv64a key) % U64 % b.numBits % U32))

/-- Set each index of `idxs` in the byte array, in order, exactly as
the loop body `bits[idx/8] |= 1 << (idx%8)` does; `none` when an index
falls outside the array (Go panic). -/
def setBits : List Nat → List Nat → Option (List Nat)
  | bits, [] => some bits
  | bits, idx :: rest =>
    if h : idx / 8 < bits.length then
      setBits (bits.set (idx / 8) (bits.get ⟨idx / 8, h⟩ ||| 2 ^ (idx % 8))) rest
    else none

/-- Test each index of `idxs` in order, exactly as the loop of
`MayContain` does: return `false` at the first unset bit, `true` when
every bit is set, `none` when an index that is reached falls outside
the array (Go panic). -/
def checkBits : List Nat → List Nat → Option Bool
  | _, [] => some true
  | bits, idx :: rest =>
    match bits[idx / 8]? with
    | none => none
    | some byte => if byte &&& 2 ^ (idx % 8) = 0 then some false else checkBits bits rest

/-- The `Add` operation (`bloom.go` lines 57-65): set the k positions
of the key and increment the approximate count (uint32 wrap). -/
def DenylistBloom.Add (b : DenylistBloom) (key : List Nat) : Option DenylistBloom :=
  match b.hashIndices key with
  | none => none
  | some idxs =>
    match setBits b.bits idxs with
    | none => none
    | some bs => some { b with bits := bs, count := (b.count + 1) % U32 }

/-- The `MayContain` operation (`bloom.go` lines 70-80): `false` as
soon as one of the k positions is unset, `true` otherwise. -/
def DenylistBloom.MayContain (b : DenylistBloom) (key : List Nat) : Option Bool :=
  match b.hashIndices key with
  | none => none
  | some idxs => checkBits b.bits idxs

/-- Little-endian 4-byte encoding of a `uint32`
(`binary.LittleEndian.PutUint32`). -/
def putUint32LE (x : Nat) : List Nat :=
  [x % 256, x / 256 % 256, x / 65536 % 256, x / 16777216 % 256]

/-- Little-endian `uint32` read of 4 bytes starting at `off`
(`binary.LittleEndian.Uint32`). -/
def getUint32LE (data : List Nat) (off : Nat) : Nat :=
  data.getD off 0 + 256 * data.getD (off + 1) 0 +
    65536 * data.getD (off + 2) 0 + 16777216 * data.getD (off + 3) 0

/-- The `Serialize` operation (`bloom.go` lines 91-101): 12-byte
header `[numBits:4][numHash:4][count:4]` followed by the bit bytes. -/
def DenylistBloom.Serialize (b : DenylistBloom) : List Nat :=
  putUint32LE b.numBits ++ putUint32LE b.numHash ++ putUint32LE b.count ++ b.bits

/-- The `Deserialize` function (`bloom.go` lines 104-127).  Both error
returns in the source are the sentinel `ErrInvalidBloomData`, so
`none` models exactly that error: buffer shorter than the 12-byte
header, or total length different from `12 + numBits/8` for the
header's declared `numBits`.  No other header validation happens. -/
def Deserialize (data : List Nat) : Option DenylistBloom :=
  if data.length < 12 then none
  else
    let numBits := getUint32LE data 0
    let numHash := getUint32LE data 4
    let count := getUint32LE data 8
    if data.length ≠ 12 + numBits / 8 then none
    else some ⟨data.drop 12, numHash, numBits, count⟩

/-- The one error `Merge` can return (`ErrBloomDimensionMismatch`). -/
inductive MergeError where
  | dimensionMismatch
deriving DecidableEq

/-- Bitwise OR of the receiver's bytes with the other filter's bytes,
as the loop `for i := range b.bits { b.bits[i] |= other.bits[i] }`:
iteration is over the receiver's indices, so a shorter `other` array
panics (`none`). -/
def orBytes : List Nat → List Nat → Option (List Nat)
  | [], _ => some []
  | _ :: _, [] => none
  | x :: xs, y :: ys => (orBytes xs ys).map (fun r => (x ||| y) :: r)

/-- The `Merge` operation (`bloom.go` lines 132-152) for a non-nil
argument.  The result pairs the receiver's post-state with the
returned error: on dimension mismatch Go returns before touching any
state, so the receiver is unchanged; on success the bits are OR-ed and
the counts added (uint32 wrap).  The outer `none` is a panic. -/
def DenylistBloom.Merge (b other : DenylistBloom) :
    Option (DenylistBloom × Option MergeError) :=
  if b.numBits = other.numBits ∧ b.numHash = other.numHash then
    (orBytes b.bits other.bits).map
      (fun bs => ({ b with bits := bs, count := (b.count + other.count) % U32 }, none))
  else some (b, some MergeError.dimensionMismatch)

/-! ## Moderation data model (`moderation.go`) -/

/-- A content flag (`moderation.go` lines 30-37).  `Category` is a Go
string type (`FlagCategory`); `Timestamp = none` models the zero
`time.Time`. -/
structure ContentFlag where
  ID        : String
  ContentID : String
  FlaggedBy : String
  Category  : String
  Evidence  : String
  Timestamp : Option Int
deriving DecidableEq

/-- A denylist entry (`moderation.go` lines 40-45). -/
structure DenyEntry where
  ContentID : String
  Reason    : String
  DeniedAt  : Int
  DeniedBy  : String
deriving DecidableEq

/-- An audit record (`moderation.go` lines 48-56). -/
structure AuditRecord where
  ID        : String
  FlagID    : String
  ContentID : String
  Action    : String
  ActionBy  : String
  Reason    : String
  Timestamp : Int
deriving DecidableEq

/-- The review-action constants (`moderation.go` lines 23-27). -/
def ActionApprove : String := "approve"

/-- The `deny` review action. -/
def ActionDeny : String := "deny"

/-- The `dismiss` review action. -/
def ActionDismiss : String := "dismiss"

/-- Escalation configuration (`moderation.go` lines 88-93):
`FlagThreshold` is a Go `int`, `Window` a `time.Duration`
(nanoseconds), both modelled as `Int`. -/
structure EscalationConfig where
  FlagThreshold : Int
  Window        : Int
deriving DecidableEq

/-- The `DMCARestorePeriod` constant (`moderation.go` line 104):
`10 * 24 * time.Hour` in nanoseconds. -/
def DMCARestorePeriod : Int := 10 * 24 * 3600 * 1000000000

/-- A DMCA counter-notice (`moderation.go` lines 74-85); only the
timing fields matter here, the identity fields are kept as strings. -/
structure DMCACounterNotice where
  ID           : String
  NoticeID     : String
  ContentID    : String
  ReceivedAt   : Int
  RestoreAfter : Int
deriving DecidableEq

/-- Modelled from the spec: no code under `src/` computes a
counter-notice's `RestoreAfter` (the struct comment says it is set by
the system); per the spec it is "receipt time plus a fixed 10-day
period", i.e. `ReceivedAt + DMCARestorePeriod`. -/
def computeRestoreAfter (receivedAt : Int) : Int :=
  receivedAt + DMCARestorePeriod

/-- Modelled from the spec: no restoration routine exists under
`src/`; per the spec the entry "must remain denied until that instant
passes", so removal is permitted only strictly after `RestoreAfter`. -/
def restorePermitted (restoreAfter now : Int) : Bool :=
  decide (restoreAfter < now)

/-! ## Association lists standing in for Go maps -/

/-- Go map update `m[k] = v`: overwrite the binding of `k` if present,
otherwise append a new binding. -/
def alU {α : Type} : List (String × α) → String → α → List (String × α)
  | [], k, v => [(k, v)]
  | (k0, v0) :: rest, k, v =>
    if k0 = k then (k, v) :: rest else (k0, v0) :: alU rest k v

/-- Go map read `m[k]` (with presence bit). -/
def alG {α : Type} : List (String × α) → String → Option α
  | [], _ => none
  | (k0, v0) :: rest, k => if k0 = k then some v0 else alG rest k

/-- Keys of the association list are pairwise distinct (true of every
list built from `[]` by `alU`, mirroring a Go map). -/
def NodupKeys {α : Type} (l : List (String × α)) : Prop :=
  (l.map Prod.fst).Nodup

/-! ## The in-memory moderation queue (`mock.go`) -/

/-- Combined state of `MockModerationQueue` together with its injected
collaborators `MockDenyList` (field `denyList`, keyed entries) and
`MockAuditLog` (field `auditLog`, append-only record list), as wired
up by `NewMockModerationQueue(dl, al, cfg)` with non-nil
collaborators. -/
structure MockModerationQueue where
  flags        : List (String × ContentFlag)
  escalated    : List String
  reviewed     : List (String × String)
  denyList     : List (String × DenyEntry)
  auditLog     : List AuditRecord
  contentFlags : List (String × List Int)
  escConfig    : EscalationConfig
deriving DecidableEq

/-- Fresh queue as built by `NewMockModerationQueue` over a fresh
`MockDenyList` and `MockAuditLog`. -/
def initQueue (cfg : EscalationConfig) : MockModerationQueue :=
  ⟨[], [], [], [], [], [], cfg⟩

/-- ID assigned to a submitted flag: `flag-<len(m.flags)+1>` when the
flag carries no ID, otherwise the flag's own ID. -/
def assignedID (m : MockModerationQueue) (flag : ContentFlag) : String :=
  if flag.ID = "" then "flag-" ++ toString (m.flags.length + 1) else flag.ID

/-- The `Submit` operation (`mock.go` lines 83-112) at instant `now`:
assign ID and timestamp if absent, store the flag, prune the content's
timestamps to those strictly inside the trailing window, append `now`,
and mark the new flag escalated when the in-window count reaches the
threshold.  `Submit` always returns a nil error. -/
def MockModerationQueue.Submit (m : MockModerationQueue) (flag0 : ContentFlag)
    (now : Int) : MockModerationQueue :=
  let flag1 := if flag0.ID = "" then
      { flag0 with ID := "flag-" ++ toString (m.flags.length + 1) } else flag0
  let flag := if flag1.Timestamp = none then { flag1 with Timestamp := some now } else flag1
  let cutoff := now - m.escConfig.Window
  let times := (alG m.contentFlags flag.ContentID).getD []
  let recent := times.filter (fun t => decide (cutoff < t)) ++ [now]
  { m with
    flags := alU m.flags flag.ID flag
    contentFlags := alU m.contentFlags flag.ContentID recent
    escalated :=
      if m.escConfig.FlagThreshold ≤ (recent.length : Int) then
        flag.ID :: m.escalated
      else m.escalated }

/-- Count of in-window submissions for a content identifier at the
moment a new flag arrives: stored timestamps strictly after
`now - Window`, plus the current submission. -/
def inWindowFlagCount (m : MockModerationQueue) (cid : String) (now : Int) : Int :=
  ((((alG m.contentFlags cid).getD []).filter
      (fun t => decide (now - m.escConfig.Window < t))).length : Int) + 1

/-- The `Review` operation (`mock.go` lines 114-139) at instant `now`:
`none` models the not-found error (state unchanged, Go returns before
mutating); otherwise record the outcome, on `deny` add the flag's
content to the denylist (reason = flag category, `MockDenyList.Add`
stamps actor "system"), and append exactly one audit record with ID
`audit-<flagID>`. -/
def MockModerationQueue.Review (m : MockModerationQueue) (flagID : String)
    (action : String) (reviewedBy : String) (now : Int) : Option MockModerationQueue :=
  match alG m.flags flagID with
  | none => none
  | some flag =>
    let m1 := { m with reviewed := alU m.reviewed flagID action }
    let entry : DenyEntry := ⟨flag.ContentID, flag.Category, now, "system"⟩
    let m2 := if action = ActionDeny then
        { m1 with denyList := alU m1.denyList flag.ContentID entry }
      else m1
    some { m2 with auditLog := m2.auditLog ++
      [⟨"audit-" ++ flagID, flagID, flag.ContentID, action, reviewedBy, flag.Category, now⟩] }

/-- The `Escalate` operation (`mock.go` lines 141-149): `none` models
the not-found error; otherwise mark the flag escalated. -/
def MockModerationQueue.Escalate (m : MockModerationQueue) (flagID : String) :
    Option MockModerationQueue :=
  match alG m.flags flagID with
  | none => none
  | some _ => some { m with escalated := flagID :: m.escalated }

/-- The `GetPending` operation (`mock.go` lines 157-167): every stored
flag with no recorded review outcome (map iteration gives no
particular order; the filter order here is one admissible order). -/
def MockModerationQueue.GetPending (m : MockModerationQueue) : List ContentFlag :=
  (m.flags.filter (fun p => (alG m.reviewed p.1).isNone)).map (fun p => p.2)

/-- The `MockDenyList.IsDenied` read (`mock.go` lines 41-46). -/
def isDenied (m : MockModerationQueue) (contentID : String) : Bool :=
  (alG m.denyList contentID).isSome

/-- States reachable from a fresh queue by any sequence of `Submit`,
`Review` and `Escalate` calls (failed `Review`/`Escalate` calls leave
the state unchanged, so they need no case). -/
inductive Reachable : MockModerationQueue → Prop
  | init (cfg : EscalationConfig) : Reachable (initQueue cfg)
  | submit {m : MockModerationQueue} (flag : ContentFlag) (now : Int) :
      Reachable m → Reachable (m.Submit flag now)
  | review {m m2 : MockModerationQueue} (flagID action reviewedBy : String) (now : Int) :
      Reachable m → m.Review flagID action reviewedBy now = some m2 → Reachable m2
  | escalate {m m2 : MockModerationQueue} (flagID : String) :
      Reachable m → m.Escalate flagID = some m2 → Reachable m2

/-! ## Helper lemmas: bits and bytes -/

theorem land_two_pow_eq_zero_iff (x k : Nat) : (x &&& 2 ^ k = 0) ↔ x.testBit k = false := by
  constructor
  · intro h
    have h2 := congrArg (fun y => Nat.testBit y k) h
    simpa [Nat.testBit_land, Nat.testBit_two_pow_self, Nat.zero_testBit] using h2
  · intro h
    apply Nat.eq_of_testBit_eq
    intro i
    rw [Nat.testBit_land, Nat.zero_testBit]
    by_cases hik : i = k
    · subst hik; simp [h]
    · simp [Nat.testBit_two_pow_of_ne (Ne.symm hik)]

theorem getD_set_self (l : List Nat) (i v : Nat) (h : i < l.length) :
    (l.set i v).getD i 0 = v := by
  rw [List.getD_eq_getElem?_getD, List.getElem?_set_eq_of_lt v h]; rfl

theorem getD_set_ne (l : List Nat) (i j v : Nat) (h : i ≠ j) :
    (l.set i v).getD j 0 = l.getD j 0 := by
  rw [List.getD_eq_getElem?_getD, List.getElem?_set_ne h, ← List.getD_eq_getElem?_getD]

theorem getD_eq_of_lt (l : List Nat) (i : Nat) (h : i < l.length) :
    l.getD i 0 = l[i] := by
  rw [List.getD_eq_getElem?_getD, List.getElem?_eq_getElem h]; rfl

theorem mapM_some {α β : Type} (g : α → β) :
    ∀ l : List α, l.mapM (m := Option) (fun i => some (g i)) = some (l.map g)
  | [] => rfl
  | a :: l => by rw [List.mapM_cons, mapM_some g l]; rfl

theorem bitSet_set (bits : List Nat) (idx j : Nat) (h : idx / 8 < bits.length) :
    bitSet (bits.set (idx / 8) (bits.getD (idx / 8) 0 ||| 2 ^ (idx % 8))) j
      = (bitSet bits j || decide (j = idx)) := by
  by_cases hdiv : j / 8 = idx / 8
  · rw [bitSet, hdiv, getD_set_self _ _ _ h, Nat.testBit_lor]
    by_cases hmod : j % 8 = idx % 8
    · have hj : j = idx := by omega
      subst hj
      simp [bitSet, Nat.testBit_two_pow_self, hdiv]
    · have hj : j ≠ idx := by omega
      have hne : idx % 8 ≠ j % 8 := fun hc => hmod hc.symm
      simp [bitSet, hdiv, Nat.testBit_two_pow_of_ne hne, hj]
  · have hj : j ≠ idx := by omega
    rw [bitSet, getD_set_ne _ _ _ _ (fun hc => hdiv hc.symm)]
    simp [bitSet, hj]

theorem setBits_spec :
    ∀ (idxs bits : List Nat), (∀ idx ∈ idxs, idx / 8 < bits.length) →
      ∃ bs, setBits bits idxs = some bs ∧ bs.length = bits.length ∧
        ∀ j, bitSet bs j = (bitSet bits j || decide (j ∈ idxs))
  | [], bits, _ => ⟨bits, rfl, rfl, by simp⟩
  | idx :: rest, bits, h => by
    have hidx : idx / 8 < bits.length := h idx (List.mem_cons_self idx rest)
    have hb : bits.get ⟨idx / 8, hidx⟩ = bits.getD (idx / 8) 0 :=
      (getD_eq_of_lt bits _ hidx).symm
    have hrest : ∀ i ∈ rest, i / 8 <
        (bits.set (idx / 8) (bits.getD (idx / 8) 0 ||| 2 ^ (idx % 8))).length := by
      intro i hi
      rw [List.length_set]
      exact h i (List.mem_cons_of_mem idx hi)
    obtain ⟨bs, heq, hlen, hchar⟩ := setBits_spec rest _ hrest
    refine ⟨bs, ?_, ?_, ?_⟩
    · rw [setBits, dif_pos hidx, hb]
      exact heq
    · rw [hlen, List.length_set]
    · intro j
      rw [hchar j, bitSet_set bits idx j hidx]
      simp [List.mem_cons, Bool.or_assoc, decide_eq_true_eq, or_comm]

theorem checkBits_all_set (bits : List Nat) :
    ∀ idxs : List Nat,
      (∀ idx ∈ idxs, idx / 8 < bits.length ∧ bitSet bits idx = true) →
      checkBits bits idxs = some true
  | [], _ => rfl
  | idx :: rest, h => by
    obtain ⟨hlt, hbit⟩ := h idx (List.mem_cons_self idx rest)
    have hget : bits[idx / 8]? = some bits[idx / 8] := List.getElem?_eq_getElem hlt
    have hnz : ¬ (bits[idx / 8] &&& 2 ^ (idx % 8) = 0) := by
      rw [land_two_pow_eq_zero_iff]
      rw [bitSet, getD_eq_of_lt bits _ hlt] at hbit
      simp [hbit]
    rw [checkBits, hget]
    simp only [if_neg hnz]
    exact checkBits_all_set bits rest (fun i hi => h i (List.mem_cons_of_mem idx hi))

theorem checkBits_false (bits : List Nat) :
    ∀ idxs : List Nat, checkBits bits idxs = some false →
      ∃ idx ∈ idxs, bitSet bits idx = false
  | [], h => by simp [checkBits] at h
  | idx :: rest, h => by
    rw [checkBits] at h
    cases hget : bits[idx / 8]? with
    | none =>
      rw [hget] at h
      exact Option.noConfusion h
    | some byte =>
      rw [hget] at h
      have h : (if byte &&& 2 ^ (idx % 8) = 0 then some false
          else checkBits bits rest) = some false := h
      by_cases hz : byte &&& 2 ^ (idx % 8) = 0
      · refine ⟨idx, List.mem_cons_self idx rest, ?_⟩
        have hlt : idx / 8 < bits.length := by
          by_contra hge
          rw [List.getElem?_eq_none (Nat.le_of_not_lt hge)] at hget
          exact absurd hget (by simp)
        have hbyte : bits.getD (idx / 8) 0 = byte := by
          rw [getD_eq_of_lt bits _ hlt]
          have := List.getElem?_eq_getElem hlt
          rw [this] at hget
          exact Option.some_injective _ hget
        rw [bitSet, hbyte]
        exact (land_two_pow_eq_zero_iff byte (idx % 8)).mp hz
      · rw [if_neg hz] at h
        obtain ⟨i, hi, hb⟩ := checkBits_false bits rest h
        exact ⟨i, List.mem_cons_of_mem idx hi, hb⟩

theorem hashIndices_eq (b : DenylistBloom) (key : List Nat)
    (hpos : 0 < b.numBits) (h32 : b.numBits < U32) :
    b.hashIndices key = some ((List.range b.numHash).map
      (fun i => (fnv64 key + i * fnv64a key) % U64 % b.numBits)) := by
  have hne : b.numBits ≠ 0 := Nat.pos_iff_ne_zero.mp hpos
  have step : (fun i => if b.numBits = 0 then none
      else some ((fnv64 key + i * fnv64a key) % U64 % b.numBits % U32))
      = (fun i : Nat => some ((fnv64 key + i * fnv64a key) % U64 % b.numBits)) := by
    funext i
    rw [if_neg hne, Nat.mod_eq_of_lt (Nat.lt_trans (Nat.mod_lt _ hpos) h32)]
  rw [DenylistBloom.hashIndices, step, mapM_some]

theorem hashIndices_mem_lt (b : DenylistBloom) (key : List Nat) (idx : Nat)
    (hpos : 0 < b.numBits)
    (hmem : idx ∈ (List.range b.numHash).map
      (fun i => (fnv64 key + i * fnv64a key) % U64 % b.numBits)) :
    idx < b.numBits := by
  obtain ⟨i, _, hi⟩ := List.mem_map.mp hmem
  rw [← hi]
  exact Nat.mod_lt _ hpos

/-- C1: for every key and every valid filter configuration, `Add` sets
exactly the k bit positions `(a + i*b) mod m` derived from the key (no
other bit changes, and no bit is ever cleared), a subsequent
`MayContain` on that key returns true (no false negatives), and
`MayContain` can return false only when at least one of those same k
positions is unset. -/
theorem bloom_add_no_false_negatives (b : DenylistBloom) (key : List Nat)
    (h8 : b.numBits % 8 = 0) (hpos : 0 < b.numBits) (h32 : b.numBits < U32)
    (hlen : b.bits.length = b.numBits / 8) :
    ∃ idxs b2,
      b.hashIndices key = some idxs ∧
      idxs = (List.range b.numHash).map
        (fun i => (fnv64 key + i * fnv64a key) % U64 % b.numBits) ∧
      b.Add key = some b2 ∧
      (∀ j, bitSet b2.bits j = (bitSet b.bits j || decide (j ∈ idxs))) ∧
      b2.MayContain key = some true ∧
      (b.MayContain key = some false → ∃ idx ∈ idxs, bitSet b.bits idx = false) := by
  have hIdx := hashIndices_eq b key hpos h32
  set idxs := (List.range b.numHash).map
    (fun i => (fnv64 key + i * fnv64a key) % U64 % b.numBits) with hidxs
  have hdiv : ∀ idx ∈ idxs, idx / 8 < b.bits.length := by
    intro idx hmem
    have hlt := hashIndices_mem_lt b key idx hpos hmem
    rw [hlen]
    rw [Nat.div_lt_iff_lt_mul (by norm_num : (0:Nat) < 8),
      Nat.div_mul_cancel (Nat.dvd_of_mod_eq_zero h8)]
    exact hlt
  obtain ⟨bs, hset, hbslen, hchar⟩ := setBits_spec idxs b.bits hdiv
  refine ⟨idxs, { b with bits := bs, count := (b.count + 1) % U32 }, hIdx, rfl, ?_, hchar, ?_, ?_⟩
  · simp only [DenylistBloom.Add, hIdx, hset]
  · have hIdx2 : DenylistBloom.hashIndices
        { b with bits := bs, count := (b.count + 1) % U32 } key = some idxs :=
      hashIndices_eq _ key hpos h32
    rw [DenylistBloom.MayContain, hIdx2]
    apply checkBits_all_set
    intro idx hmem
    constructor
    · rw [hbslen]; exact hdiv idx hmem
    · rw [hchar idx]
      simp [hmem]
  · intro hfalse
    rw [DenylistBloom.MayContain, hIdx] at hfalse
    exact checkBits_false b.bits idxs hfalse

/-- Witness for C1: the valid 64-bit, 3-hash filter with all bits
clear accepts the one-byte key `[97]` and then reports it present. -/
theorem bloom_add_no_false_negatives_witness :
    ∃ idxs b2,
      DenylistBloom.hashIndices ⟨[0,0,0,0,0,0,0,0], 3, 64, 0⟩ [97] = some idxs ∧
      idxs = (List.range 3).map
        (fun i => (fnv64 [97] + i * fnv64a [97]) % U64 % 64) ∧
      DenylistBloom.Add ⟨[0,0,0,0,0,0,0,0], 3, 64, 0⟩ [97] = some b2 ∧
      (∀ j, bitSet b2.bits j =
        (bitSet [0,0,0,0,0,0,0,0] j || decide (j ∈ idxs))) ∧
      DenylistBloom.MayContain b2 [97] = some true ∧
      (DenylistBloom.MayContain ⟨[0,0,0,0,0,0,0,0], 3, 64, 0⟩ [97] = some false →
        ∃ idx ∈ idxs, bitSet [0,0,0,0,0,0,0,0] idx = false) :=
  bloom_add_no_false_negatives ⟨[0,0,0,0,0,0,0,0], 3, 64, 0⟩ [97]
    (by norm_num) (by norm_num) (by norm_num [U32]) (by norm_num)

theorem getUint32_putUint32 (x : Nat) (h : x < U32) (rest : List Nat) (off : Nat)
    (hoff : off = 0) :
    getUint32LE (putUint32LE x ++ rest) off = x := by
  subst hoff
  have h32 : x < 4294967296 := by simpa [U32] using h
  simp [getUint32LE, putUint32LE, List.getD]
  omega

/-- C4: serializing then deserializing any filter whose scalar fields
fit in `uint32` (true of every filter the Go code can hold) succeeds
and reproduces the same dimensions, approximate count, bit array, and
hence the same `MayContain` answer on every key. -/
theorem bloom_serialize_roundtrip (b : DenylistBloom)
    (hm : b.numBits < U32) (hk : b.numHash < U32) (hc : b.count < U32)
    (hlen : b.bits.length = b.numBits / 8) :
    ∃ b2, Deserialize b.Serialize = some b2 ∧ b2 = b ∧
      b2.numBits = b.numBits ∧ b2.numHash = b.numHash ∧ b2.count = b.count ∧
      ∀ key, b2.MayContain key = b.MayContain key := by
  obtain ⟨bits, numHash, numBits, count⟩ := b
  simp only at hm hk hc hlen
  have hser : DenylistBloom.Serialize ⟨bits, numHash, numBits, count⟩ =
      putUint32LE numBits ++ (putUint32LE numHash ++ (putUint32LE count ++ bits)) := by
    simp [DenylistBloom.Serialize]
  have hlen12 : (DenylistBloom.Serialize ⟨bits, numHash, numBits, count⟩).length =
      12 + bits.length := by
    simp [DenylistBloom.Serialize, putUint32LE]
    omega
  have h0 : getUint32LE (DenylistBloom.Serialize ⟨bits, numHash, numBits, count⟩) 0 = numBits := by
    rw [hser]; exact getUint32_putUint32 numBits hm _ 0 rfl
  have h4 : getUint32LE (DenylistBloom.Serialize ⟨bits, numHash, numBits, count⟩) 4 = numHash := by
    rw [hser]
    have : getUint32LE (putUint32LE numBits ++
        (putUint32LE numHash ++ (putUint32LE count ++ bits))) 4 =
        getUint32LE (putUint32LE numHash ++ (putUint32LE count ++ bits)) 0 := by
      simp [getUint32LE, putUint32LE, List.getD]
    rw [this]
    exact getUint32_putUint32 numHash hk _ 0 rfl
  have h8 : getUint32LE (DenylistBloom.Serialize ⟨bits, numHash, numBits, count⟩) 8 = count := by
    rw [hser]
    have : getUint32LE (putUint32LE numBits ++
        (putUint32LE numHash ++ (putUint32LE count ++ bits))) 8 =
        getUint32LE (putUint32LE count ++ bits) 0 := by
      simp [getUint32LE, putUint32LE, List.getD]
    rw [this]
    exact getUint32_putUint32 count hc _ 0 rfl
  have hdrop : (DenylistBloom.Serialize ⟨bits, numHash, numBits, count⟩).drop 12 = bits := by
    rw [hser]
    simp [putUint32LE]
  refine ⟨⟨bits, numHash, numBits, count⟩, ?_, rfl, rfl, rfl, rfl, fun _ => rfl⟩
  rw [Deserialize]
  rw [if_neg (by rw [hlen12]; omega)]
  simp only [h0, h4, h8]
  rw [if_neg (by rw [hlen12, hlen]; omega), hdrop]

/-- Witness for C4: a concrete 64-bit filter with one byte set
round-trips to itself. -/
theorem bloom_serialize_roundtrip_witness :
    ∃ b2, Deserialize (DenylistBloom.Serialize ⟨[0,4,64,0,0,0,0,64], 3, 64, 1⟩) = some b2 ∧
      b2 = ⟨[0,4,64,0,0,0,0,64], 3, 64, 1⟩ ∧
      b2.numBits = 64 ∧ b2.numHash = 3 ∧ b2.count = 1 ∧
      ∀ key, b2.MayContain key =
        DenylistBloom.MayContain ⟨[0,4,64,0,0,0,0,64], 3, 64, 1⟩ key :=
  bloom_serialize_roundtrip ⟨[0,4,64,0,0,0,0,64], 3, 64, 1⟩
    (by norm_num [U32]) (by norm_num [U32]) (by norm_num [U32]) (by norm_num)

/-- C5: `Deserialize` fails (and its only failure value in the source
is `ErrInvalidBloomData`) exactly when the buffer is shorter than the
12-byte header or its total length differs from `12 + m/8` for the
header's declared `m`; on every other buffer it succeeds. -/
theorem deserialize_error_iff (data : List Nat) :
    Deserialize data = none ↔
      (data.length < 12 ∨ data.length ≠ 12 + getUint32LE data 0 / 8) := by
  rw [Deserialize]
  by_cases h12 : data.length < 12
  · simp [h12]
  · rw [if_neg h12]
    by_cases hlen : data.length ≠ 12 + getUint32LE data 0 / 8
    · simp [hlen, h12]
    · simp [hlen, h12]

/-- C9: `Deserialize` validates nothing about the header beyond the
length equation.  Any 12-byte buffer declaring `numBits = 0` is
accepted as an empty-bit-array filter with whatever `numHash` and
`count` the header declares.  If `numHash = 0` too, `MayContain`
vacuously answers true for every key; if `numHash ≥ 1`, both `Add`
and `MayContain` hit the modulo-by-zero in the bit-index computation
(a Go runtime panic, modelled as `none`), so deserialized filters are
not guaranteed panic-free. -/
theorem deserialize_no_header_validation (data key : List Nat)
    (hlen : data.length = 12) (hm : getUint32LE data 0 = 0) :
    Deserialize data = some ⟨[], getUint32LE data 4, 0, getUint32LE data 8⟩ ∧
    (getUint32LE data 4 = 0 →
      DenylistBloom.MayContain ⟨[], getUint32LE data 4, 0, getUint32LE data 8⟩ key
        = some true) ∧
    (1 ≤ getUint32LE data 4 →
      DenylistBloom.MayContain ⟨[], getUint32LE data 4, 0, getUint32LE data 8⟩ key
          = none ∧
        DenylistBloom.Add ⟨[], getUint32LE data 4, 0, getUint32LE data 8⟩ key = none) := by
  have hdes : Deserialize data = some ⟨[], getUint32LE data 4, 0, getUint32LE data 8⟩ := by
    rw [Deserialize, if_neg (by omega), hm]
    rw [if_neg (by omega)]
    have : data.drop 12 = [] := by
      apply List.eq_nil_of_length_eq_zero
      simp [hlen]
    rw [this]
  refine ⟨hdes, ?_, ?_⟩
  · intro hk
    rw [hk]
    rfl
  · intro hk
    obtain ⟨n, hn⟩ : ∃ n, getUint32LE data 4 = n + 1 :=
      ⟨getUint32LE data 4 - 1, by omega⟩
    have hnone : DenylistBloom.hashIndices
        ⟨[], getUint32LE data 4, 0, getUint32LE data 8⟩ key = none := by
      rw [DenylistBloom.hashIndices]
      simp only [hn]
      rw [List.range_succ_eq_map, List.mapM_cons]
      simp
    constructor
    · rw [DenylistBloom.MayContain, hnone]
    · rw [DenylistBloom.Add, hnone]

/-- Witness for C9: the all-zero header yields the vacuous filter that
contains every key; the header with `numHash = 1` yields a filter on
which both `MayContain` and `Add` panic. -/
theorem deserialize_no_header_validation_witness :
    Deserialize [0,0,0,0, 0,0,0,0, 0,0,0,0] = some ⟨[], 0, 0, 0⟩ ∧
    DenylistBloom.MayContain ⟨[], 0, 0, 0⟩ [97] = some true ∧
    Deserialize [0,0,0,0, 1,0,0,0, 0,0,0,0] = some ⟨[], 1, 0, 0⟩ ∧
    DenylistBloom.MayContain ⟨[], 1, 0, 0⟩ [97] = none ∧
    DenylistBloom.Add ⟨[], 1, 0, 0⟩ [97] = none := by
  have h1 := deserialize_no_header_validation [0,0,0,0, 0,0,0,0, 0,0,0,0] [97] rfl rfl
  have h2 := deserialize_no_header_validation [0,0,0,0, 1,0,0,0, 0,0,0,0] [97] rfl rfl
  have h2b := h2.2.2 (by norm_num [getUint32LE, List.getD])
  exact ⟨h1.1, h1.2.1 rfl, h2.1, h2b.1, h2b.2⟩

theorem orBytes_eq_zipWith :
    ∀ xs ys : List Nat, xs.length ≤ ys.length →
      orBytes xs ys = some (List.zipWith (fun x y => x ||| y) xs ys)
  | [], _, _ => rfl
  | x :: xs, [], h => by simp at h
  | x :: xs, y :: ys, h => by
    rw [orBytes, orBytes_eq_zipWith xs ys (by simpa using h)]
    rfl

theorem zipWith_lor_self_right :
    ∀ xs ys : List Nat,
      List.zipWith (fun x y => x ||| y) (List.zipWith (fun x y => x ||| y) xs ys) ys
        = List.zipWith (fun x y => x ||| y) xs ys
  | [], _ => rfl
  | _ :: _, [] => rfl
  | x :: xs, y :: ys => by
    rw [List.zipWith_cons_cons, List.zipWith_cons_cons, zipWith_lor_self_right xs ys,
      Nat.lor_assoc, Nat.or_self]

/-- C6: merging two filters of identical dimensions (and hence, for
any filters the Go code builds, byte arrays of equal length) succeeds
with the bitwise OR of the two bit arrays; the merge is commutative
and idempotent on bit content; the approximate count afterwards is the
uint32 sum of both counts (the sum reduced modulo `2^32`); and any
pair with differing `numBits` or `numHash` always fails with the
dimension-mismatch error, leaving the receiver unchanged. -/
theorem bloom_merge (a b c d : DenylistBloom)
    (hm : a.numBits = b.numBits) (hk : a.numHash = b.numHash)
    (hab : a.bits.length = b.bits.length)
    (hcd : c.numBits ≠ d.numBits ∨ c.numHash ≠ d.numHash) :
    ∃ m1 m2 m3,
      a.Merge b = some (m1, none) ∧
      m1.bits = List.zipWith (fun x y => x ||| y) a.bits b.bits ∧
      m1.count = (a.count + b.count) % U32 ∧
      b.Merge a = some (m2, none) ∧
      m2.bits = m1.bits ∧
      m1.Merge b = some (m3, none) ∧
      m3.bits = m1.bits ∧
      c.Merge d = some (c, some MergeError.dimensionMismatch) := by
  have hor : orBytes a.bits b.bits =
      some (List.zipWith (fun x y => x ||| y) a.bits b.bits) :=
    orBytes_eq_zipWith a.bits b.bits (le_of_eq hab)
  have hor2 : orBytes b.bits a.bits =
      some (List.zipWith (fun x y => x ||| y) b.bits a.bits) :=
    orBytes_eq_zipWith b.bits a.bits (le_of_eq hab.symm)
  have hlen3 : (List.zipWith (fun x y => x ||| y) a.bits b.bits).length ≤ b.bits.length := by
    rw [List.length_zipWith]
    omega
  have hor3 : orBytes (List.zipWith (fun x y => x ||| y) a.bits b.bits) b.bits =
      some (List.zipWith (fun x y => x ||| y)
        (List.zipWith (fun x y => x ||| y) a.bits b.bits) b.bits) :=
    orBytes_eq_zipWith _ _ hlen3
  refine ⟨⟨List.zipWith (fun x y => x ||| y) a.bits b.bits, a.numHash, a.numBits,
      (a.count + b.count) % U32⟩,
    ⟨List.zipWith (fun x y => x ||| y) b.bits a.bits, b.numHash, b.numBits,
      (b.count + a.count) % U32⟩,
    ⟨List.zipWith (fun x y => x ||| y)
        (List.zipWith (fun x y => x ||| y) a.bits b.bits) b.bits, a.numHash, a.numBits,
      ((a.count + b.count) % U32 + b.count) % U32⟩,
    ?_, rfl, rfl, ?_, ?_, ?_, ?_, ?_⟩
  · rw [DenylistBloom.Merge, if_pos ⟨hm, hk⟩, hor]
    rfl
  · rw [DenylistBloom.Merge, if_pos ⟨hm.symm, hk.symm⟩, hor2]
    rfl
  · exact List.zipWith_comm_of_comm (fun x y => x ||| y) Nat.lor_comm b.bits a.bits
  · rw [DenylistBloom.Merge, if_pos ⟨hm, hk⟩, hor3]
    rfl
  · exact zipWith_lor_self_right a.bits b.bits
  · rw [DenylistBloom.Merge, if_neg (by tauto)]

/-- Witness for C6: two concrete 16-bit filters merge to the OR of
their bytes both ways, and a `numHash` mismatch is rejected. -/
theorem bloom_merge_witness :
    ∃ m1 m2 m3,
      DenylistBloom.Merge ⟨[1,2], 3, 16, 5⟩ ⟨[4,8], 3, 16, 7⟩ = some (m1, none) ∧
      m1.bits = List.zipWith (fun x y => x ||| y) [1,2] [4,8] ∧
      m1.count = (5 + 7) % U32 ∧
      DenylistBloom.Merge ⟨[4,8], 3, 16, 7⟩ ⟨[1,2], 3, 16, 5⟩ = some (m2, none) ∧
      m2.bits = m1.bits ∧
      m1.Merge ⟨[4,8], 3, 16, 7⟩ = some (m3, none) ∧
      m3.bits = m1.bits ∧
      DenylistBloom.Merge ⟨[1,2], 3, 16, 5⟩ ⟨[1,2], 4, 16, 5⟩
        = some (⟨[1,2], 3, 16, 5⟩, some MergeError.dimensionMismatch) :=
  bloom_merge ⟨[1,2], 3, 16, 5⟩ ⟨[4,8], 3, 16, 7⟩ ⟨[1,2], 3, 16, 5⟩ ⟨[1,2], 4, 16, 5⟩
    rfl rfl rfl (by norm_num)

/-- Counterexample to C6 as stated: the approximate count after a
successful merge is the uint32 (wrapping) sum, not the exact sum.
These two filters are the images under `Deserialize` of the valid
buffers `[0,0,0,0, 7,0,0,0, 255,255,255,255]` and
`[0,0,0,0, 7,0,0,0, 1,0,0,0]`; Go computes
`b.count += other.count` on `uint32`, so `4294967295 + 1` wraps to
`0`, which is not the sum `4294967296`. -/
theorem bloom_merge_count_counterexample :
    Deserialize [0,0,0,0, 7,0,0,0, 255,255,255,255] = some ⟨[], 7, 0, 4294967295⟩ ∧
    Deserialize [0,0,0,0, 7,0,0,0, 1,0,0,0] = some ⟨[], 7, 0, 1⟩ ∧
    DenylistBloom.Merge ⟨[], 7, 0, 4294967295⟩ ⟨[], 7, 0, 1⟩
      = some (⟨[], 7, 0, 0⟩, none) ∧
    (0 : Nat) ≠ 4294967295 + 1 := by
  refine ⟨by decide, by decide, by decide, by decide⟩

/-- C8: `DMCARestorePeriod` is exactly 10 calendar days (240 hours)
in nanoseconds, a counter-notice received at `T` gets
`RestoreAfter = T + DMCARestorePeriod`, and restoration is never
permitted strictly before that instant. -/
theorem dmca_restore_after (cn : DMCACounterNotice) (now : Int)
    (hsys : cn.RestoreAfter = computeRestoreAfter cn.ReceivedAt)
    (hbefore : now < cn.RestoreAfter) :
    cn.RestoreAfter = cn.ReceivedAt + DMCARestorePeriod ∧
    DMCARestorePeriod = 240 * 3600 * 1000000000 ∧
    restorePermitted cn.RestoreAfter now = false := by
  refine ⟨hsys, by norm_num [DMCARestorePeriod], ?_⟩
  rw [restorePermitted, decide_eq_false_iff_not]
  omega

/-- Witness for C8: a counter-notice received at instant 0 may not be
restored at instant 5. -/
theorem dmca_restore_after_witness :
    let cn : DMCACounterNotice := ⟨"cn-1", "n-1", "vid-1", 0, computeRestoreAfter 0⟩
    cn.RestoreAfter = cn.ReceivedAt + DMCARestorePeriod ∧
    DMCARestorePeriod = 240 * 3600 * 1000000000 ∧
    restorePermitted cn.RestoreAfter 5 = false :=
  dmca_restore_after ⟨"cn-1", "n-1", "vid-1", 0, computeRestoreAfter 0⟩ 5 rfl
    (by norm_num [computeRestoreAfter, DMCARestorePeriod])

/-! ## Helper lemmas: association lists -/

theorem alG_alU_self {α : Type} :
    ∀ (l : List (String × α)) (k : String) (v : α), alG (alU l k v) k = some v
  | [], k, v => by simp [alU, alG]
  | (k0, v0) :: rest, k, v => by
    by_cases h : k0 = k
    · simp [alU, alG, h]
    · simp only [alU, if_neg h, alG]
      exact alG_alU_self rest k v

theorem alG_some_mem {α : Type} :
    ∀ {l : List (String × α)} {k : String} {v : α}, alG l k = some v → (k, v) ∈ l
  | [], k, v, h => by simp [alG] at h
  | (k0, v0) :: rest, k, v, h => by
    rw [alG] at h
    by_cases hk : k0 = k
    · rw [if_pos hk] at h
      obtain rfl := Option.some_injective _ h
      subst hk
      exact List.mem_cons_self _ _
    · rw [if_neg hk] at h
      exact List.mem_cons_of_mem _ (alG_some_mem h)

theorem mem_alG_of_nodup {α : Type} :
    ∀ {l : List (String × α)} {k : String} {v : α},
      NodupKeys l → (k, v) ∈ l → alG l k = some v
  | [], _, _, _, h => by simp at h
  | (k0, v0) :: rest, k, v, hnd, h => by
    rw [List.mem_cons] at h
    have hnd2 : NodupKeys rest := ((List.nodup_cons).mp hnd).2
    cases h with
    | inl heq =>
      obtain ⟨rfl, rfl⟩ := Prod.mk.injEq .. ▸ (Prod.ext_iff.mp heq)
      simp [alG]
    | inr hmem =>
      have hk0 : k0 ≠ k := by
        intro hc
        subst hc
        have : k0 ∈ rest.map Prod.fst := List.mem_map.mpr ⟨(k0, v), hmem, rfl⟩
        exact ((List.nodup_cons).mp hnd).1 this
      rw [alG, if_neg hk0]
      exact mem_alG_of_nodup hnd2 hmem

theorem mem_keys_alU {α : Type} :
    ∀ (l : List (String × α)) (k k2 : String) (v : α),
      k2 ∈ (alU l k v).map Prod.fst ↔ (k2 ∈ l.map Prod.fst ∨ k2 = k)
  | [], k, k2, v => by simp [alU, eq_comm]
  | (k0, v0) :: rest, k, k2, v => by
    by_cases h : k0 = k
    · subst h
      simp [alU, eq_comm, or_comm, or_assoc, or_left_comm]
    · rw [alU, if_neg h]
      simp only [List.map_cons, List.mem_cons]
      rw [mem_keys_alU rest k k2 v]
      tauto

theorem nodupKeys_alU {α : Type} :
    ∀ (l : List (String × α)) (k : String) (v : α),
      NodupKeys l → NodupKeys (alU l k v)
  | [], k, v, _ => by simp [alU, NodupKeys]
  | (k0, v0) :: rest, k, v, hnd => by
    obtain ⟨hni, hnd2⟩ := (List.nodup_cons).mp hnd
    by_cases h : k0 = k
    · subst h
      rw [alU, if_pos rfl]
      exact (List.nodup_cons).mpr ⟨hni, hnd2⟩
    · rw [alU, if_neg h]
      refine (List.nodup_cons).mpr ⟨?_, nodupKeys_alU rest k v hnd2⟩
      rw [mem_keys_alU]
      push_neg
      exact ⟨hni, h⟩

theorem mem_ite_cons {c : Prop} [Decidable c] (x id : String) (l : List String) :
    id ∈ (if c then x :: l else l) ↔ (id ∈ l ∨ (id = x ∧ c)) := by
  split_ifs with h
  · rw [List.mem_cons]
    constructor
    · rintro (h1 | h1)
      · exact Or.inr ⟨h1, h⟩
      · exact Or.inl h1
    · rintro (h1 | ⟨h1, _⟩)
      · exact Or.inr h1
      · exact Or.inl h1
  · constructor
    · exact Or.inl
    · rintro (h1 | ⟨_, h1⟩)
      · exact h1
      · exact absurd h1 h

/-- C2: one `Submit` call escalates exactly the newly submitted flag,
and only when the in-window submission count for its content
identifier (pruned relative to the submission instant, current
submission included) reaches the threshold: a flag identifier is
escalated after the call iff it was escalated before, or it is the
assigned identifier of the new flag and the in-window count reached
`FlagThreshold`.  In particular earlier flags are never retroactively
escalated and out-of-window submissions never count. -/
theorem submit_escalation (m : MockModerationQueue) (flag : ContentFlag) (now : Int)
    (id : String) :
    id ∈ (m.Submit flag now).escalated ↔
      (id ∈ m.escalated ∨
        (id = assignedID m flag ∧
          m.escConfig.FlagThreshold ≤ inWindowFlagCount m flag.ContentID now)) := by
  by_cases hts : flag.Timestamp = none <;> by_cases hid : flag.ID = "" <;>
    simp only [MockModerationQueue.Submit, assignedID, inWindowFlagCount, hts, hid,
      if_true, if_false, reduceIte, ite_true, ite_false] <;>
    rw [mem_ite_cons] <;>
    · constructor
      · rintro (h | ⟨h1, h2⟩)
        · exact Or.inl h
        · refine Or.inr ⟨h1, ?_⟩
          rw [List.length_append, List.length_cons, List.length_nil] at h2
          push_cast at h2 ⊢
          omega
      · rintro (h | ⟨h1, h2⟩)
        · exact Or.inl h
        · refine Or.inr ⟨h1, ?_⟩
          rw [List.length_append, List.length_cons, List.length_nil]
          push_cast at h2 ⊢
          omega

theorem Review_eq (m : MockModerationQueue) (flagID action reviewedBy : String)
    (now : Int) (f : ContentFlag) (hf : alG m.flags flagID = some f) :
    m.Review flagID action reviewedBy now = some
      ⟨m.flags, m.escalated, alU m.reviewed flagID action,
        (if action = ActionDeny then
          alU m.denyList f.ContentID ⟨f.ContentID, f.Category, now, "system"⟩
        else m.denyList),
        m.auditLog ++
          [⟨"audit-" ++ flagID, flagID, f.ContentID, action, reviewedBy,
            f.Category, now⟩],
        m.contentFlags, m.escConfig⟩ := by
  rw [MockModerationQueue.Review, hf]
  by_cases h : action = ActionDeny <;> simp [h]

/-- C3: reviewing a submitted flag with `deny` makes the denylist
report its content identifier denied and appends exactly one audit
record carrying the flag identifier, the content identifier, the
reviewing actor, and the flag's category as reason; reviewing it with
`approve` appends exactly one audit record and adds no denylist
entry. -/
theorem review_deny_approve (m : MockModerationQueue) (flagID actor : String)
    (f : ContentFlag) (cid : String) (now : Int)
    (hf : alG m.flags flagID = some f) (hcid : f.ContentID = cid) :
    (∃ m2, m.Review flagID ActionDeny actor now = some m2 ∧
      isDenied m2 cid = true ∧
      m2.auditLog = m.auditLog ++
        [⟨"audit-" ++ flagID, flagID, cid, ActionDeny, actor, f.Category, now⟩]) ∧
    (∃ m3, m.Review flagID ActionApprove actor now = some m3 ∧
      m3.denyList = m.denyList ∧
      m3.auditLog = m.auditLog ++
        [⟨"audit-" ++ flagID, flagID, cid, ActionApprove, actor, f.Category, now⟩]) := by
  subst hcid
  constructor
  · refine ⟨_, Review_eq m flagID ActionDeny actor now f hf, ?_, rfl⟩
    simp [isDenied, alG_alU_self]
  · refine ⟨_, Review_eq m flagID ActionApprove actor now f hf, ?_, rfl⟩
    simp only []
    rw [if_neg (by decide : ¬ ActionApprove = ActionDeny)]

/-- Witness for C3: in a queue holding the flag `f1` for `vid-789`,
denying makes `vid-789` denied with the expected audit record, and
approving leaves the denylist empty. -/
theorem review_deny_approve_witness :
    (∃ m2, MockModerationQueue.Review
        ((initQueue ⟨3, 3600⟩).Submit ⟨"f1", "vid-789", "u1", "illegal", "", some 5⟩ 5)
        "f1" ActionDeny "admin-1" 9 = some m2 ∧
      isDenied m2 "vid-789" = true ∧
      m2.auditLog = [] ++
        [⟨"audit-" ++ "f1", "f1", "vid-789", ActionDeny, "admin-1", "illegal", 9⟩]) ∧
    (∃ m3, MockModerationQueue.Review
        ((initQueue ⟨3, 3600⟩).Submit ⟨"f1", "vid-789", "u1", "illegal", "", some 5⟩ 5)
        "f1" ActionApprove "admin-1" 9 = some m3 ∧
      m3.denyList = [] ∧
      m3.auditLog = [] ++
        [⟨"audit-" ++ "f1", "f1", "vid-789", ActionApprove, "admin-1", "illegal", 9⟩]) :=
  review_deny_approve
    ((initQueue ⟨3, 3600⟩).Submit ⟨"f1", "vid-789", "u1", "illegal", "", some 5⟩ 5)
    "f1" "admin-1" ⟨"f1", "vid-789", "u1", "illegal", "", some 5⟩ "vid-789" 9
    (by decide) rfl

/-- C10: a flag that was already reviewed can be reviewed again: the
second `Review` also succeeds, overwrites the recorded outcome,
appends a second audit record whose ID is the same string
`audit-<flagID>` as the first record's ID, and, when the second action
is `deny`, re-adds the content identifier to the denylist. -/
theorem review_twice (m : MockModerationQueue) (flagID a1 a2 r1 r2 : String)
    (t1 t2 : Int) (f : ContentFlag) (hf : alG m.flags flagID = some f) :
    ∃ m1 m2,
      m.Review flagID a1 r1 t1 = some m1 ∧
      m1.Review flagID a2 r2 t2 = some m2 ∧
      alG m2.reviewed flagID = some a2 ∧
      m2.auditLog = m.auditLog ++
        [⟨"audit-" ++ flagID, flagID, f.ContentID, a1, r1, f.Category, t1⟩,
          ⟨"audit-" ++ flagID, flagID, f.ContentID, a2, r2, f.Category, t2⟩] ∧
      (a2 = ActionDeny → isDenied m2 f.ContentID = true) := by
  have h1 := Review_eq m flagID a1 r1 t1 f hf
  refine ⟨_, _, h1, Review_eq _ flagID a2 r2 t2 f hf, ?_, ?_, ?_⟩
  · exact alG_alU_self _ flagID a2
  · simp
  · intro hdeny
    simp [isDenied, hdeny, alG_alU_self]

/-- Witness for C10: the flag `f1` reviewed as `approve` then as
`deny` yields two same-ID audit records, outcome `deny`, and a denied
content identifier. -/
theorem review_twice_witness :
    ∃ m1 m2,
      MockModerationQueue.Review
        ((initQueue ⟨3, 3600⟩).Submit ⟨"f1", "vid-9", "u1", "abuse", "", some 5⟩ 5)
        "f1" ActionApprove "admin-1" 6 = some m1 ∧
      m1.Review "f1" ActionDeny "admin-2" 7 = some m2 ∧
      alG m2.reviewed "f1" = some ActionDeny ∧
      m2.auditLog = [] ++
        [⟨"audit-" ++ "f1", "f1", "vid-9", ActionApprove, "admin-1", "abuse", 6⟩,
          ⟨"audit-" ++ "f1", "f1", "vid-9", ActionDeny, "admin-2", "abuse", 7⟩] ∧
      (ActionDeny = ActionDeny → isDenied m2 "vid-9" = true) :=
  review_twice ((initQueue ⟨3, 3600⟩).Submit ⟨"f1", "vid-9", "u1", "abuse", "", some 5⟩ 5)
    "f1" ActionApprove ActionDeny "admin-1" "admin-2" 6 7
    ⟨"f1", "vid-9", "u1", "abuse", "", some 5⟩ (by decide)

theorem Review_flags_eq {m m2 : MockModerationQueue} {flagID action reviewedBy : String}
    {now : Int} (h : m.Review flagID action reviewedBy now = some m2) :
    m2.flags = m.flags := by
  rw [MockModerationQueue.Review] at h
  cases hf : alG m.flags flagID with
  | none => rw [hf] at h; exact Option.noConfusion h
  | some f =>
    rw [hf] at h
    have h : some _ = some m2 := h
    obtain rfl := Option.some_injective _ h
    by_cases hd : action = ActionDeny <;> simp [hd]

theorem Escalate_flags_eq {m m2 : MockModerationQueue} {flagID : String}
    (h : m.Escalate flagID = some m2) : m2.flags = m.flags := by
  rw [MockModerationQueue.Escalate] at h
  cases hf : alG m.flags flagID with
  | none => rw [hf] at h; exact Option.noConfusion h
  | some f =>
    rw [hf] at h
    have h : some _ = some m2 := h
    obtain rfl := Option.some_injective _ h
    rfl

theorem reachable_nodup_flags {m : MockModerationQueue} (h : Reachable m) :
    NodupKeys m.flags := by
  induction h with
  | init cfg => exact List.nodup_nil
  | submit flag now _ ih =>
    exact nodupKeys_alU _ _ _ ih
  | review flagID action reviewedBy now _ heq ih =>
    rw [Review_flags_eq heq]
    exact ih
  | escalate flagID _ heq ih =>
    rw [Escalate_flags_eq heq]
    exact ih

/-- C7: in every state reachable by any sequence of `Submit`, `Review`
and `Escalate` operations, `GetPending` returns exactly the flags with
no recorded review outcome: a flag appears in the returned list iff it
is stored under some identifier that has no entry in the reviewed
map. -/
theorem pending_iff_unreviewed (m : MockModerationQueue) (hr : Reachable m)
    (f : ContentFlag) :
    f ∈ m.GetPending ↔
      ∃ id, alG m.flags id = some f ∧ alG m.reviewed id = none := by
  have hnd := reachable_nodup_flags hr
  rw [MockModerationQueue.GetPending]
  constructor
  · intro h
    obtain ⟨p, hp, hpf⟩ := List.mem_map.mp h
    obtain ⟨hmem, hpred⟩ := List.mem_filter.mp hp
    refine ⟨p.1, ?_, ?_⟩
    · rw [← hpf]
      exact mem_alG_of_nodup hnd (by rwa [← Prod.mk.eta (p := p)] at hmem)
    · exact Option.isNone_iff_eq_none.mp hpred
  · rintro ⟨id, h1, h2⟩
    refine List.mem_map.mpr ⟨(id, f), List.mem_filter.mpr ⟨alG_some_mem h1, ?_⟩, rfl⟩
    rw [h2]
    rfl

/-- Witness for C7: after one `Submit` on a fresh queue the submitted
flag is pending. -/
theorem pending_iff_unreviewed_witness :
    (⟨"f1", "vid-1", "u1", "abuse", "", some 5⟩ : ContentFlag) ∈
      MockModerationQueue.GetPending
        ((initQueue ⟨3, 3600⟩).Submit ⟨"f1", "vid-1", "u1", "abuse", "", some 5⟩ 5) :=
  (pending_iff_unreviewed
    ((initQueue ⟨3, 3600⟩).Submit ⟨"f1", "vid-1", "u1", "abuse", "", some 5⟩ 5)
    (Reachable.submit _ _ (Reachable.init ⟨3, 3600⟩))
    ⟨"f1", "vid-1", "u1", "abuse", "", some 5⟩).mpr
    ⟨"f1", by decide, by decide⟩

end FilStream
